import Mathlib

/-!
Shallow embedding of the `number-words-rust` library (`src/lib.rs`).

The library decodes a string of digit characters into every string
obtainable by partitioning the input into tokens and mapping each token
through a lookup table.  Three strategies are provided: a naive recursive
one (`NaiveParser`), a depth-first backtracking one (`DfsParser`) and a
memoized graph one (`MemoizedParser`).

Modelling conventions:
* Rust `String` / `Vec<char>` values are `List Char`.
* The configuration `Vec<(String, char)>` is `List (List Char × Char)`.
* The `HashMap<Vec<char>, char>` built by `collect` resolves duplicate
  keys by overwriting, so the last pair wins; `tableGet` models the map
  as a lookup over the reversed configuration list.
* The `HashSet<char>` alphabet is modelled by list membership.
* The recursive procedures (`parse_list`, `dfs`, `generate`) recurse on a
  strict suffix of the input; they are embedded with an explicit fuel
  argument (structural recursion) and invoked with enough fuel, exactly
  as the Rust recursion depth is bounded by the input length.
* The mutable buffer/results vectors of `dfs` and `generate` are threaded
  explicitly: each call returns the final contents of `current` and
  `results`.
-/

namespace NumberWords

/-- `NumberWordsError` from `lib.rs`: the only variant carries the first
invalid character of the input. -/
inductive NumberWordsError where
  | invalidCharacter : Char → NumberWordsError
deriving DecidableEq, Repr

/-- `Config = Vec<(String, char)>`. -/
abbrev Config := List (List Char × Char)

/-- `default_config`: tokens `"1"`..`"26"` mapped to `'A'`..`'Z'`
(built from the bytes `b'A'..=b'Z'`). -/
def default_config : Config :=
  (List.range' 65 26).map (fun b => (Nat.toDigits 10 (b - 65 + 1), Char.ofNat b))

/-- The alphabet built in each parser's `new`: every character occurring
in any configured token (set semantics via list membership). -/
def alphabet (cfg : Config) : List Char :=
  cfg.flatMap (fun p => p.1)

/-- `max_lookahead`: `config.iter().map(|(s,_)| s.len()).fold(0, max)`. -/
def max_lookahead (cfg : Config) : Nat :=
  (cfg.map (fun p => p.1.length)).foldl Nat.max 0

/-- Lookup in the `HashMap` built by
`config.iter().map(|(s,c)| (s.chars().collect(), c)).collect()`.
Repeated inserts overwrite, so the surviving binding for a duplicated
key is the one inserted last; hence the lookup scans the reversed
configuration. -/
def tableGet (cfg : Config) (s : List Char) : Option Char :=
  (cfg.reverse.find? (fun p => p.1 == s)).map (fun p => p.2)

/-- `validate`: scan the input in order and fail on the first character
not contained in the alphabet. -/
def validate (cfg : Config) (digits : List Char) : Option NumberWordsError :=
  (digits.find? (fun c => !((alphabet cfg).contains c))).map
    (fun c => NumberWordsError.invalidCharacter c)

/-- `NaiveParser::parse_list`, with fuel (the Rust recursion consumes at
least one character per level, so `ds.length` fuel suffices).
Empty suffix: one empty word.  Otherwise try each lookahead
`1 ..= min max_lookahead ds.length`; on a table hit, decode the rest and
prepend the symbol (`push_front` on the `VecDeque`). -/
def parseListGo (cfg : Config) : Nat → List Char → List (List Char)
  | _, [] => [[]]
  | 0, _ :: _ => []
  | fuel + 1, d :: ds =>
    (List.range' 1 (min (max_lookahead cfg) (d :: ds).length)).flatMap
      (fun len =>
        match tableGet cfg ((d :: ds).take len) with
        | some c => (parseListGo cfg fuel ((d :: ds).drop len)).map (fun w => c :: w)
        | none => [])

/-- `parse_list` applied with adequate fuel. -/
def parse_list (cfg : Config) (ds : List Char) : List (List Char) :=
  parseListGo cfg ds.length ds

/-- `NaiveParser::parse`: validate, then decode.  (The Rust conversion of
each `VecDeque<char>` into a `String` is the identity on `List Char`.) -/
def naiveParse (cfg : Config) (digits : List Char) :
    Except NumberWordsError (List (List Char)) :=
  match validate cfg digits with
  | some e => .error e
  | none => .ok (parse_list cfg digits)

/-- `DfsParser::dfs`, with fuel (each recursive call advances `index` by
at least one, so `chars.length` fuel suffices).  The state is the pair
`(current, results)`; a table hit at lookahead `len` pushes the symbol,
recurses at `index + len`, then pops (`dropLast`). -/
def dfsGo (cfg : Config) (chars : List Char) :
    Nat → Nat → List Char → List (List Char) → List Char × List (List Char)
  | 0, index, current, results =>
    if index = chars.length then (current, results ++ [current])
    else (current, results)
  | fuel + 1, index, current, results =>
    if index = chars.length then (current, results ++ [current])
    else
      (List.range' 1 (min (max_lookahead cfg) (chars.length - index))).foldl
        (fun st len =>
          match tableGet cfg ((chars.drop index).take len) with
          | some c =>
            let st' := dfsGo cfg chars fuel (index + len) (st.1 ++ [c]) st.2
            (st'.1.dropLast, st'.2)
          | none => st)
        (current, results)

/-- `DfsParser::parse`: validate, then run `dfs` from index 0 with empty
buffer and empty results. -/
def dfsParse (cfg : Config) (digits : List Char) :
    Except NumberWordsError (List (List Char)) :=
  match validate cfg digits with
  | some e => .error e
  | none => .ok (dfsGo cfg digits digits.length 0 [] []).2

/-- `MemoizedParser::build_graph`: for each position `i`, the edges
`(symbol, i + len)` for every lookahead whose slice is a table key, in
ascending `len` order. -/
def build_graph (cfg : Config) (chars : List Char) : List (List (Char × Nat)) :=
  (List.range chars.length).map (fun i =>
    (List.range' 1 (min (max_lookahead cfg) (chars.length - i))).filterMap
      (fun len => (tableGet cfg ((chars.drop i).take len)).map (fun c => (c, i + len))))

/-- `MemoizedParser::count_solutions`: `dp` has `n + 1` slots, `dp[n] = 1`,
then for `i` from `n-1` down to `0` the inner loop accumulates
`dp[i] += dp[next]` over the edges of row `i`; the answer is `dp[0]`. -/
def count_solutions (n : Nat) (adj : List (List (Char × Nat))) : Nat :=
  let dp :=
    (List.range n).reverse.foldl
      (fun dp i =>
        (adj.getD i []).foldl
          (fun dp e => dp.set i (dp.getD i 0 + dp.getD e.2 0)) dp)
      ((List.replicate (n + 1) 0).set n 1)
  dp.getD 0 0

/-- The dp loop of `count_solutions`, specialised to the graph of `chars`
and abstracted over the list of processed indices (the Rust loop processes
`(List.range n).reverse`, i.e. `n-1` down to `0`). -/
def dpFold (cfg : Config) (chars : List Char) (l : List Nat) : List Nat :=
  l.foldl
    (fun dp i =>
      ((build_graph cfg chars).getD i []).foldl
        (fun dp e => dp.set i (dp.getD i 0 + dp.getD e.2 0)) dp)
    ((List.replicate (chars.length + 1) 0).set chars.length 1)

/-- `MemoizedParser::generate`, with fuel: walk the prebuilt graph edges
from `index`, pushing the edge symbol, recursing at the edge target and
popping on return; a result is recorded when `index` reaches `adj.length`. -/
def generateGo (adj : List (List (Char × Nat))) :
    Nat → Nat → List Char → List (List Char) → List Char × List (List Char)
  | 0, index, current, results =>
    if index = adj.length then (current, results ++ [current])
    else (current, results)
  | fuel + 1, index, current, results =>
    if index = adj.length then (current, results ++ [current])
    else
      (adj.getD index []).foldl
        (fun st e =>
          let st' := generateGo adj fuel e.2 (st.1 ++ [e.1]) st.2
          (st'.1.dropLast, st'.2))
        (current, results)

/-- `MemoizedParser::parse`: validate, build the graph, count solutions
(the count is used only to pre-size the results vector), then generate. -/
def memoizedParse (cfg : Config) (digits : List Char) :
    Except NumberWordsError (List (List Char)) :=
  match validate cfg digits with
  | some e => .error e
  | none =>
    let adj := build_graph cfg digits
    let _count := count_solutions digits.length adj
    .ok (generateGo adj digits.length 0 [] []).2

/-- Modelled from the claim text of C4 (the spec's `CompletionCount`):
`dp[n] = 1` and `dp[i] = Σ dp[i + L]` over the decode-graph edges out of
`i`, i.e. over the lookaheads `L ∈ 1 ..= min maxLookahead (n - i)` whose
slice is a table key.  Embedded with fuel `n - i`. -/
def specCountGo (cfg : Config) (chars : List Char) : Nat → Nat → Nat
  | 0, i => if i = chars.length then 1 else 0
  | fuel + 1, i =>
    if i = chars.length then 1
    else
      ((List.range' 1 (min (max_lookahead cfg) (chars.length - i))).map
        (fun len =>
          match tableGet cfg ((chars.drop i).take len) with
          | some _ => specCountGo cfg chars fuel (i + len)
          | none => 0)).sum

/-- The spec's completion count at position `i`. -/
def specCount (cfg : Config) (chars : List Char) (i : Nat) : Nat :=
  specCountGo cfg chars (chars.length - i) i

/-! ### Validator lemmas -/

lemma validate_eq_none_iff (cfg : Config) (digits : List Char) :
    validate cfg digits = none ↔ ∀ c ∈ digits, c ∈ alphabet cfg := by
  simp [validate, List.find?_eq_none, List.contains]

lemma validate_append_invalid (cfg : Config) (pre : List Char) (c : Char)
    (suf : List Char) (hpre : ∀ d ∈ pre, d ∈ alphabet cfg) (hc : c ∉ alphabet cfg) :
    validate cfg (pre ++ c :: suf) = some (NumberWordsError.invalidCharacter c) := by
  unfold validate
  rw [List.find?_append]
  have h1 : pre.find? (fun d => !((alphabet cfg).contains d)) = none := by
    rw [List.find?_eq_none]
    intro x hx
    simpa [List.contains] using hpre x hx
  have h2 : (c :: suf).find? (fun d => !((alphabet cfg).contains d)) = some c := by
    rw [List.find?_cons_of_pos]
    simpa [List.contains] using hc
  rw [h1, h2]
  rfl

/-! ### Fuel irrelevance -/

lemma parseListGo_fuel (cfg : Config) :
    ∀ (f₁ f₂ : Nat) (ds : List Char), ds.length ≤ f₁ → ds.length ≤ f₂ →
      parseListGo cfg f₁ ds = parseListGo cfg f₂ ds := by
  intro f₁
  induction f₁ with
  | zero =>
    intro f₂ ds h1 _
    have hds : ds = [] := List.eq_nil_of_length_eq_zero (Nat.le_zero.mp h1)
    subst hds
    cases f₂ <;> rfl
  | succ f ih =>
    intro f₂ ds h1 h2
    cases ds with
    | nil => cases f₂ <;> rfl
    | cons d t =>
      cases f₂ with
      | zero => simp at h2
      | succ f₂' =>
        show parseListGo cfg (f + 1) (d :: t) = parseListGo cfg (f₂' + 1) (d :: t)
        unfold parseListGo
        apply List.flatMap_congr
        intro len hlen
        have hlen1 : 1 ≤ len := (List.mem_range'_1.mp hlen).1
        have hd1 : ((d :: t).drop len).length ≤ f := by
          rw [List.length_drop]
          simp only [List.length_cons] at h1 ⊢
          omega
        have hd2 : ((d :: t).drop len).length ≤ f₂' := by
          rw [List.length_drop]
          simp only [List.length_cons] at h2 ⊢
          omega
        cases tableGet cfg ((d :: t).take len) with
        | none => rfl
        | some c => rw [ih f₂' _ hd1 hd2]

lemma parseListGo_eq_parse_list (cfg : Config) (fuel : Nat) (ds : List Char)
    (h : ds.length ≤ fuel) : parseListGo cfg fuel ds = parse_list cfg ds :=
  parseListGo_fuel cfg fuel ds.length ds h (Nat.le_refl _)

lemma specCountGo_fuel (cfg : Config) (chars : List Char) :
    ∀ (f₁ f₂ i : Nat), chars.length - i ≤ f₁ → chars.length - i ≤ f₂ →
      specCountGo cfg chars f₁ i = specCountGo cfg chars f₂ i := by
  intro f₁
  induction f₁ with
  | zero =>
    intro f₂ i h1 _
    by_cases hi : i = chars.length
    · subst hi
      cases f₂ <;> simp [specCountGo]
    · have hgt : chars.length < i := by omega
      cases f₂ with
      | zero => rfl
      | succ f₂' =>
        show (if i = chars.length then 1 else 0) = specCountGo cfg chars (f₂' + 1) i
        unfold specCountGo
        rw [if_neg hi, if_neg hi]
        have : chars.length - i = 0 := by omega
        rw [this]
        simp
  | succ f ih =>
    intro f₂ i h1 h2
    by_cases hi : i = chars.length
    · subst hi
      cases f₂ <;> simp [specCountGo]
    · cases f₂ with
      | zero =>
        have hgt : chars.length < i := by omega
        show specCountGo cfg chars (f + 1) i = (if i = chars.length then 1 else 0)
        unfold specCountGo
        rw [if_neg hi, if_neg hi]
        have : chars.length - i = 0 := by omega
        rw [this]
        simp
      | succ f₂' =>
        show specCountGo cfg chars (f + 1) i = specCountGo cfg chars (f₂' + 1) i
        unfold specCountGo
        rw [if_neg hi, if_neg hi]
        congr 1
        apply List.map_congr_left
        intro len hlen
        have hlen1 : 1 ≤ len := (List.mem_range'_1.mp hlen).1
        cases tableGet cfg ((chars.drop i).take len) with
        | none => rfl
        | some c =>
          exact ih f₂' (i + len) (by omega) (by omega)

/-! ### Frame (buffer restoration) lemmas -/

lemma foldl_fst_eq {α β γ : Type _} (f : β × γ → α → β × γ)
    (hf : ∀ st a, (f st a).1 = st.1) (l : List α) (init : β × γ) :
    (l.foldl f init).1 = init.1 := by
  induction l generalizing init with
  | nil => rfl
  | cons a t ih => rw [List.foldl_cons, ih, hf]

lemma dfsGo_fst (cfg : Config) (chars : List Char) :
    ∀ (fuel index : Nat) (current : List Char) (results : List (List Char)),
      (dfsGo cfg chars fuel index current results).1 = current := by
  intro fuel
  induction fuel with
  | zero =>
    intro index current results
    unfold dfsGo
    split <;> rfl
  | succ f ih =>
    intro index current results
    unfold dfsGo
    split
    · rfl
    · apply foldl_fst_eq
      intro st len
      cases htab : tableGet cfg ((chars.drop index).take len) with
      | none => simp [htab]
      | some c => simp [htab, ih, List.dropLast_concat]

lemma generateGo_fst (adj : List (List (Char × Nat))) :
    ∀ (fuel index : Nat) (current : List Char) (results : List (List Char)),
      (generateGo adj fuel index current results).1 = current := by
  intro fuel
  induction fuel with
  | zero =>
    intro index current results
    unfold generateGo
    split <;> rfl
  | succ f ih =>
    intro index current results
    unfold generateGo
    split
    · rfl
    · apply foldl_fst_eq
      intro st e
      simp [ih, List.dropLast_concat]

/-! ### DFS agrees with the naive recursion -/

lemma dfsGo_loop (cfg : Config) (chars : List Char) (f index : Nat)
    (IH : ∀ (j : Nat) (cur : List Char) (res : List (List Char)),
      chars.length - j ≤ f → j ≤ chars.length →
      dfsGo cfg chars f j cur res =
        (cur, res ++ (parse_list cfg (chars.drop j)).map (fun w => cur ++ w))) :
    ∀ (l : List Nat),
      (∀ len ∈ l, 1 ≤ len ∧ index + len ≤ chars.length ∧
        chars.length - (index + len) ≤ f) →
      ∀ (cur : List Char) (res : List (List Char)),
        l.foldl
          (fun st len =>
            match tableGet cfg ((chars.drop index).take len) with
            | some c =>
              let st' := dfsGo cfg chars f (index + len) (st.1 ++ [c]) st.2
              (st'.1.dropLast, st'.2)
            | none => st)
          (cur, res)
        = (cur, res ++ l.flatMap (fun len =>
            match tableGet cfg ((chars.drop index).take len) with
            | some c =>
              (parse_list cfg (chars.drop (index + len))).map (fun w => cur ++ c :: w)
            | none => [])) := by
  intro l
  induction l with
  | nil =>
    intro _ cur res
    simp
  | cons len l' ihl =>
    intro hb cur res
    obtain ⟨h1, h2, h3⟩ := hb len (List.mem_cons_self len l')
    rw [List.foldl_cons, List.flatMap_cons]
    cases htab : tableGet cfg ((chars.drop index).take len) with
    | none =>
      simp only [htab]
      rw [ihl (fun x hx => hb x (List.mem_cons_of_mem len hx)) cur res]
      simp
    | some c =>
      simp only [htab]
      rw [IH (index + len) (cur ++ [c]) res h3 h2]
      simp only [List.dropLast_concat]
      rw [ihl (fun x hx => hb x (List.mem_cons_of_mem len hx)) cur
        (res ++ (parse_list cfg (chars.drop (index + len))).map (fun w => (cur ++ [c]) ++ w))]
      simp [List.append_assoc]

lemma dfsGo_snd (cfg : Config) (chars : List Char) :
    ∀ (fuel index : Nat) (cur : List Char) (res : List (List Char)),
      chars.length - index ≤ fuel → index ≤ chars.length →
      dfsGo cfg chars fuel index cur res =
        (cur, res ++ (parse_list cfg (chars.drop index)).map (fun w => cur ++ w)) := by
  intro fuel
  induction fuel with
  | zero =>
    intro index cur res h1 h2
    have hix : index = chars.length := by omega
    subst hix
    unfold dfsGo
    rw [if_pos rfl]
    simp [parse_list, List.drop_length, parseListGo]
  | succ f ih =>
    intro index cur res h1 h2
    by_cases hix : index = chars.length
    · subst hix
      unfold dfsGo
      rw [if_pos rfl]
      simp [parse_list, List.drop_length, parseListGo]
    · have hlt : index < chars.length := by omega
      unfold dfsGo
      rw [if_neg hix]
      rw [dfsGo_loop cfg chars f index ih _
        (fun len hlen => by
          have := List.mem_range'_1.mp hlen
          refine ⟨this.1, by omega, by omega⟩) cur res]
      congr 1
      have hds : ∃ d t, chars.drop index = d :: t := by
        apply List.exists_cons_of_ne_nil
        intro hnil
        have := List.length_drop index chars
        rw [hnil] at this
        simp at this
        omega
      obtain ⟨d, t, hds⟩ := hds
      have hlen_dt : (d :: t).length = chars.length - index := by
        rw [← hds, List.length_drop]
      have hk : ∃ k, chars.length - index = k + 1 := ⟨chars.length - index - 1, by omega⟩
      obtain ⟨k, hk⟩ := hk
      rw [parse_list, hds]
      rw [hlen_dt, hk]
      unfold parseListGo
      rw [List.map_flatMap]
      rw [hlen_dt, hk]
      apply congrArg₂ _ rfl
      apply List.flatMap_congr
      intro len hlen
      have hlen1 := List.mem_range'_1.mp hlen
      rw [← hds]
      cases htab : tableGet cfg ((chars.drop index).take len) with
      | none => rfl
      | some c =>
        rw [List.map_map]
        have hdd : (chars.drop index).drop len = chars.drop (index + len) := by
          rw [List.drop_drop]
        rw [hdd]
        rw [parseListGo_eq_parse_list cfg k (chars.drop (index + len))
          (by rw [List.length_drop]; omega)]
        apply List.map_congr_left
        intro w _
        simp

lemma dfsParse_eq_naiveParse (cfg : Config) (digits : List Char) :
    dfsParse cfg digits = naiveParse cfg digits := by
  unfold dfsParse naiveParse
  cases validate cfg digits with
  | some e => rfl
  | none =>
    simp only
    rw [dfsGo_snd cfg digits digits.length 0 [] [] (by omega) (by omega)]
    simp

/-! ### Decode-graph lemmas -/

lemma build_graph_length (cfg : Config) (chars : List Char) :
    (build_graph cfg chars).length = chars.length := by
  simp [build_graph]

lemma build_graph_getD_lt (cfg : Config) (chars : List Char) (i : Nat)
    (h : i < chars.length) :
    (build_graph cfg chars).getD i [] =
      (List.range' 1 (min (max_lookahead cfg) (chars.length - i))).filterMap
        (fun len => (tableGet cfg ((chars.drop i).take len)).map (fun c => (c, i + len))) := by
  unfold build_graph
  rw [List.getD_eq_getElem _ _ (by simpa using h)]
  rw [List.getElem_map]
  rw [List.getElem_range]

lemma build_graph_getD_ge (cfg : Config) (chars : List Char) (i : Nat)
    (h : chars.length ≤ i) : (build_graph cfg chars).getD i [] = [] := by
  apply List.getD_eq_default
  rw [build_graph_length]
  exact h

lemma build_graph_mem_bounds (cfg : Config) (chars : List Char) (i : Nat)
    (e : Char × Nat) (he : e ∈ (build_graph cfg chars).getD i []) :
    i < e.2 ∧ e.2 ≤ chars.length := by
  by_cases h : i < chars.length
  · rw [build_graph_getD_lt cfg chars i h] at he
    obtain ⟨len, hlen, hmap⟩ := List.mem_filterMap.mp he
    obtain ⟨c, _, he2⟩ := Option.map_eq_some'.mp hmap
    have hlen1 := List.mem_range'_1.mp hlen
    have h2 : e.2 = i + len := by rw [← he2]
    constructor <;> omega
  · rw [build_graph_getD_ge cfg chars i (by omega)] at he
    cases he

/-! ### Generation from the graph agrees with the naive recursion -/

lemma generateGo_loop (cfg : Config) (chars : List Char) (f index : Nat)
    (IH : ∀ (j : Nat) (cur : List Char) (res : List (List Char)),
      chars.length - j ≤ f → j ≤ chars.length →
      generateGo (build_graph cfg chars) f j cur res =
        (cur, res ++ (parse_list cfg (chars.drop j)).map (fun w => cur ++ w))) :
    ∀ (l : List Nat),
      (∀ len ∈ l, 1 ≤ len ∧ index + len ≤ chars.length ∧
        chars.length - (index + len) ≤ f) →
      ∀ (cur : List Char) (res : List (List Char)),
        (l.filterMap
          (fun len => (tableGet cfg ((chars.drop index).take len)).map
            (fun c => (c, index + len)))).foldl
          (fun st e =>
            let st' := generateGo (build_graph cfg chars) f e.2 (st.1 ++ [e.1]) st.2
            (st'.1.dropLast, st'.2))
          (cur, res)
        = (cur, res ++ l.flatMap (fun len =>
            match tableGet cfg ((chars.drop index).take len) with
            | some c =>
              (parse_list cfg (chars.drop (index + len))).map (fun w => cur ++ c :: w)
            | none => [])) := by
  intro l
  induction l with
  | nil =>
    intro _ cur res
    simp
  | cons len l' ihl =>
    intro hb cur res
    obtain ⟨h1, h2, h3⟩ := hb len (List.mem_cons_self len l')
    rw [List.filterMap_cons, List.flatMap_cons]
    cases htab : tableGet cfg ((chars.drop index).take len) with
    | none =>
      simp only [Option.map_none']
      rw [ihl (fun x hx => hb x (List.mem_cons_of_mem len hx)) cur res]
      simp
    | some c =>
      simp only [Option.map_some']
      rw [List.foldl_cons]
      simp only
      rw [IH (index + len) (cur ++ [c]) res h3 h2]
      simp only [List.dropLast_concat]
      rw [ihl (fun x hx => hb x (List.mem_cons_of_mem len hx)) cur
        (res ++ (parse_list cfg (chars.drop (index + len))).map (fun w => (cur ++ [c]) ++ w))]
      simp [List.append_assoc]

lemma generateGo_snd (cfg : Config) (chars : List Char) :
    ∀ (fuel index : Nat) (cur : List Char) (res : List (List Char)),
      chars.length - index ≤ fuel → index ≤ chars.length →
      generateGo (build_graph cfg chars) fuel index cur res =
        (cur, res ++ (parse_list cfg (chars.drop index)).map (fun w => cur ++ w)) := by
  intro fuel
  induction fuel with
  | zero =>
    intro index cur res h1 h2
    have hix : index = chars.length := by omega
    subst hix
    unfold generateGo
    rw [if_pos (build_graph_length cfg chars).symm]
    simp [parse_list, List.drop_length, parseListGo]
  | succ f ih =>
    intro index cur res h1 h2
    by_cases hix : index = chars.length
    · subst hix
      unfold generateGo
      rw [if_pos (build_graph_length cfg chars).symm]
      simp [parse_list, List.drop_length, parseListGo]
    · have hlt : index < chars.length := by omega
      unfold generateGo
      rw [if_neg (by rw [build_graph_length]; exact hix)]
      rw [build_graph_getD_lt cfg chars index hlt]
      rw [generateGo_loop cfg chars f index ih _
        (fun len hlen => by
          have := List.mem_range'_1.mp hlen
          refine ⟨this.1, by omega, by omega⟩) cur res]
      congr 1
      have hds : ∃ d t, chars.drop index = d :: t := by
        apply List.exists_cons_of_ne_nil
        intro hnil
        have := List.length_drop index chars
        rw [hnil] at this
        simp at this
        omega
      obtain ⟨d, t, hds⟩ := hds
      have hlen_dt : (d :: t).length = chars.length - index := by
        rw [← hds, List.length_drop]
      have hk : ∃ k, chars.length - index = k + 1 := ⟨chars.length - index - 1, by omega⟩
      obtain ⟨k, hk⟩ := hk
      rw [parse_list, hds]
      rw [hlen_dt, hk]
      unfold parseListGo
      rw [List.map_flatMap]
      rw [hlen_dt, hk]
      apply congrArg₂ _ rfl
      apply List.flatMap_congr
      intro len hlen
      have hlen1 := List.mem_range'_1.mp hlen
      rw [← hds]
      cases htab : tableGet cfg ((chars.drop index).take len) with
      | none => rfl
      | some c =>
        rw [List.map_map]
        have hdd : (chars.drop index).drop len = chars.drop (index + len) := by
          rw [List.drop_drop]
        rw [hdd]
        rw [parseListGo_eq_parse_list cfg k (chars.drop (index + len))
          (by rw [List.length_drop]; omega)]
        apply List.map_congr_left
        intro w _
        simp

lemma memoizedParse_eq_naiveParse (cfg : Config) (digits : List Char) :
    memoizedParse cfg digits = naiveParse cfg digits := by
  unfold memoizedParse naiveParse
  cases validate cfg digits with
  | some e => rfl
  | none =>
    simp only
    rw [generateGo_snd cfg digits digits.length 0 [] [] (by omega) (by omega)]
    simp

/-! ### The completion count -/

lemma getD_set_self (dp : List Nat) (i : Nat) (v : Nat) (h : i < dp.length) :
    (dp.set i v).getD i 0 = v := by
  rw [List.getD_eq_getElem?_getD, List.getElem?_set]
  simp [h]

lemma getD_set_ne (dp : List Nat) (i j : Nat) (v : Nat) (h : i ≠ j) :
    (dp.set i v).getD j 0 = dp.getD j 0 := by
  rw [List.getD_eq_getElem?_getD, List.getElem?_set, if_neg h,
    ← List.getD_eq_getElem?_getD]

lemma rowFold_length (i : Nat) (row : List (Char × Nat)) (dp : List Nat) :
    (row.foldl (fun dp e => dp.set i (dp.getD i 0 + dp.getD e.2 0)) dp).length
      = dp.length := by
  induction row generalizing dp with
  | nil => rfl
  | cons e row ih => rw [List.foldl_cons, ih, List.length_set]

lemma rowFold_getD (i : Nat) (row : List (Char × Nat)) (dp : List Nat)
    (hi : i < dp.length) (hrow : ∀ e ∈ row, e.2 ≠ i) (j : Nat) :
    (row.foldl (fun dp e => dp.set i (dp.getD i 0 + dp.getD e.2 0)) dp).getD j 0 =
      if j = i then dp.getD i 0 + (row.map (fun e => dp.getD e.2 0)).sum
      else dp.getD j 0 := by
  induction row generalizing dp with
  | nil =>
    by_cases hj : j = i <;> simp [hj]
  | cons e row ih =>
    rw [List.foldl_cons]
    have hne : e.2 ≠ i := hrow e (List.mem_cons_self e row)
    have hlen : i < (dp.set i (dp.getD i 0 + dp.getD e.2 0)).length := by
      rw [List.length_set]
      exact hi
    rw [ih _ hlen (fun x hx => hrow x (List.mem_cons_of_mem e hx))]
    by_cases hj : j = i
    · rw [if_pos hj, if_pos hj]
      rw [getD_set_self dp i _ hi]
      have hmaps : row.map (fun e' => (dp.set i (dp.getD i 0 + dp.getD e.2 0)).getD e'.2 0)
          = row.map (fun e' => dp.getD e'.2 0) := by
        apply List.map_congr_left
        intro x hx
        exact getD_set_ne dp i x.2 _ (Ne.symm (hrow x (List.mem_cons_of_mem e hx)))
      rw [hmaps, List.map_cons, List.sum_cons, Nat.add_assoc]
    · rw [if_neg hj, if_neg hj]
      exact getD_set_ne dp i j _ (fun h => hj h.symm)

lemma sum_map_filterMap_edges (F : Nat → Nat) (g : Nat → Option Char) (off : Nat) :
    ∀ (l : List Nat),
      ((l.filterMap (fun len => (g len).map (fun c => (c, off + len)))).map
        (fun e => F e.2)).sum
      = (l.map (fun len =>
          match g len with
          | some _ => F (off + len)
          | none => 0)).sum := by
  intro l
  induction l with
  | nil => rfl
  | cons a l ih =>
    rw [List.filterMap_cons, List.map_cons, List.sum_cons]
    cases hg : g a with
    | none =>
      simp only [Option.map_none', hg]
      rw [ih]
      simp
    | some c =>
      simp only [Option.map_some', hg]
      rw [List.map_cons, List.sum_cons, ih]

lemma specCount_eq_row_sum (cfg : Config) (chars : List Char) (m : Nat)
    (h : m < chars.length) :
    specCount cfg chars m =
      (((build_graph cfg chars).getD m []).map (fun e => specCount cfg chars e.2)).sum := by
  rw [build_graph_getD_lt cfg chars m h]
  rw [sum_map_filterMap_edges (specCount cfg chars)
    (fun len => tableGet cfg ((chars.drop m).take len)) m]
  obtain ⟨k, hk⟩ : ∃ k, chars.length - m = k + 1 := ⟨chars.length - m - 1, by omega⟩
  rw [specCount, hk]
  unfold specCountGo
  rw [if_neg (by omega)]
  rw [hk]
  apply congrArg
  apply List.map_congr_left
  intro len hlen
  have hlen1 := List.mem_range'_1.mp hlen
  cases htab : tableGet cfg ((chars.drop m).take len) with
  | none => rfl
  | some c =>
    rw [specCount]
    exact specCountGo_fuel cfg chars k (chars.length - (m + len)) (m + len)
      (by omega) (by omega)

lemma dpFold_invariant (cfg : Config) (chars : List Char) :
    ∀ (k m : Nat), m + k = chars.length →
      (dpFold cfg chars (List.range' m k).reverse).length = chars.length + 1 ∧
      ∀ j ≤ chars.length,
        (dpFold cfg chars (List.range' m k).reverse).getD j 0 =
          if m ≤ j then specCount cfg chars j else 0 := by
  intro k
  induction k with
  | zero =>
    intro m hm
    constructor
    · simp [dpFold, List.length_set, List.length_replicate]
    · intro j hj
      show ((List.replicate (chars.length + 1) 0).set chars.length 1).getD j 0 = _
      by_cases hjn : j = chars.length
      · subst hjn
        rw [getD_set_self _ _ _ (by simp [List.length_replicate])]
        rw [if_pos (by omega)]
        have : chars.length - chars.length = 0 := by omega
        rw [specCount, this]
        simp [specCountGo]
      · rw [getD_set_ne _ _ _ _ (fun hcon => hjn hcon.symm)]
        rw [if_neg (by omega)]
        rw [List.getD_eq_getElem?_getD]
        rw [List.getElem?_replicate]
        by_cases hlt : j < chars.length + 1 <;> simp [hlt]
  | succ k ih =>
    intro m hm
    have hrange : List.range' m (k + 1) = m :: List.range' (m + 1) k :=
      List.range'_succ m k 1
    have hfold : dpFold cfg chars (List.range' m (k + 1)).reverse =
        ((build_graph cfg chars).getD m []).foldl
          (fun dp e => dp.set m (dp.getD m 0 + dp.getD e.2 0))
          (dpFold cfg chars (List.range' (m + 1) k).reverse) := by
      rw [hrange, List.reverse_cons, dpFold, dpFold, List.foldl_append]
      rfl
    obtain ⟨ihlen, ihgetD⟩ := ih (m + 1) (by omega)
    have hmlt : m < chars.length := by omega
    have hilen : m < (dpFold cfg chars (List.range' (m + 1) k).reverse).length := by
      rw [ihlen]
      omega
    have hrow : ∀ e ∈ (build_graph cfg chars).getD m [], e.2 ≠ m := by
      intro e he
      have := build_graph_mem_bounds cfg chars m e he
      omega
    constructor
    · rw [hfold, rowFold_length, ihlen]
    · intro j hj
      rw [hfold, rowFold_getD _ _ _ hilen hrow j]
      by_cases hjm : j = m
      · subst hjm
        rw [if_pos rfl, if_pos (by omega)]
        rw [ihgetD j (by omega), if_neg (by omega)]
        have hmaps : ((build_graph cfg chars).getD j []).map
            (fun e => (dpFold cfg chars (List.range' (j + 1) k).reverse).getD e.2 0)
            = ((build_graph cfg chars).getD j []).map (fun e => specCount cfg chars e.2) := by
          apply List.map_congr_left
          intro e he
          have hb := build_graph_mem_bounds cfg chars j e he
          rw [ihgetD e.2 (by omega), if_pos (by omega)]
        rw [hmaps, Nat.zero_add]
        exact (specCount_eq_row_sum cfg chars j hmlt).symm
      · rw [if_neg hjm, ihgetD j hj]
        by_cases hmj : m ≤ j
        · rw [if_pos (by omega), if_pos hmj]
        · rw [if_neg (by omega), if_neg hmj]

lemma count_solutions_eq_specCount (cfg : Config) (chars : List Char) :
    count_solutions chars.length (build_graph cfg chars) = specCount cfg chars 0 := by
  have hrfl : count_solutions chars.length (build_graph cfg chars) =
      (dpFold cfg chars (List.range chars.length).reverse).getD 0 0 := rfl
  rw [hrfl, List.range_eq_range']
  rw [(dpFold_invariant cfg chars chars.length 0 (by omega)).2 0 (by omega)]
  simp

lemma parseListGo_length (cfg : Config) (chars : List Char) :
    ∀ (fuel i : Nat), chars.length - i ≤ fuel → i ≤ chars.length →
      (parseListGo cfg fuel (chars.drop i)).length = specCountGo cfg chars fuel i := by
  intro fuel
  induction fuel with
  | zero =>
    intro i h1 h2
    have : i = chars.length := by omega
    subst this
    rw [List.drop_length]
    simp [parseListGo, specCountGo]
  | succ f ih =>
    intro i h1 h2
    by_cases hi : i = chars.length
    · subst hi
      rw [List.drop_length]
      simp [parseListGo, specCountGo]
    · have hlt : i < chars.length := by omega
      have hds : ∃ d t, chars.drop i = d :: t := by
        apply List.exists_cons_of_ne_nil
        intro hnil
        have := List.length_drop i chars
        rw [hnil] at this
        simp at this
        omega
      obtain ⟨d, t, hds⟩ := hds
      rw [hds]
      unfold parseListGo specCountGo
      rw [if_neg hi]
      rw [List.length_flatMap]
      have hlen_dt : (d :: t).length = chars.length - i := by
        rw [← hds, List.length_drop]
      rw [hlen_dt]
      apply congrArg
      apply List.map_congr_left
      intro len hlen
      have hlen1 := List.mem_range'_1.mp hlen
      simp only [Function.comp]
      rw [← hds]
      cases htab : tableGet cfg ((chars.drop i).take len) with
      | none => rfl
      | some c =>
        rw [List.length_map]
        rw [List.drop_drop]
        exact ih (i + len) (by omega) (by omega)

lemma parse_list_length_eq_specCount (cfg : Config) (chars : List Char) :
    (parse_list cfg chars).length = specCount cfg chars 0 := by
  have h := parseListGo_length cfg chars chars.length 0 (by omega) (by omega)
  rw [List.drop_zero] at h
  rw [parse_list, h, specCount]
  exact specCountGo_fuel cfg chars chars.length (chars.length - 0) 0
    (by omega) (by omega)

/-! ### Last-insert-wins table lemmas -/

lemma find?_eq_head?_filter {α : Type _} (q : α → Bool) (l : List α) :
    l.find? q = (l.filter q).head? := by
  induction l with
  | nil => rfl
  | cons a t ih =>
    by_cases h : q a
    · simp [List.find?, List.filter, h]
    · rw [List.find?_cons_of_neg _ h, List.filter_cons_of_neg h, ih]

lemma find?_reverse_eq_getLast?_filter {α : Type _} (q : α → Bool) (l : List α) :
    l.reverse.find? q = (l.filter q).getLast? := by
  rw [List.getLast?_eq_head?_reverse, ← List.filter_reverse, find?_eq_head?_filter]

lemma tableGet_eq_getLast?_filter (cfg : Config) (t : List Char) :
    tableGet cfg t = ((cfg.filter (fun p => p.1 == t)).getLast?).map (fun p => p.2) := by
  rw [tableGet, find?_reverse_eq_getLast?_filter]

/-! ### The claims -/

/-- Claim C1: for every configuration and every input string on which
parse succeeds, the set of strings returned by the naive, DFS and
memoized parsers is identical. -/
theorem claim_C1 (cfg : Config) (digits : List Char)
    (rs₁ rs₂ rs₃ : List (List Char))
    (h₁ : naiveParse cfg digits = .ok rs₁)
    (h₂ : dfsParse cfg digits = .ok rs₂)
    (h₃ : memoizedParse cfg digits = .ok rs₃) :
    (∀ w, w ∈ rs₁ ↔ w ∈ rs₂) ∧ (∀ w, w ∈ rs₂ ↔ w ∈ rs₃) := by
  rw [dfsParse_eq_naiveParse, h₁] at h₂
  rw [memoizedParse_eq_naiveParse, h₁] at h₃
  simp only [Except.ok.injEq] at h₂ h₃
  subst h₂
  subst h₃
  exact ⟨fun w => Iff.rfl, fun w => Iff.rfl⟩

/-- Witness for C1 at the default configuration and input `"15"`. -/
theorem claim_C1_witness :
    (∀ w, w ∈ [['A', 'E'], ['O']] ↔ w ∈ [['A', 'E'], ['O']]) ∧
    (∀ w, w ∈ [['A', 'E'], ['O']] ↔ w ∈ [['A', 'E'], ['O']]) :=
  claim_C1 default_config ['1', '5'] [['A', 'E'], ['O']] [['A', 'E'], ['O']]
    [['A', 'E'], ['O']] rfl rfl rfl

/-- Claim C2: an input containing a character outside the alphabet makes
every strategy's parse return `InvalidCharacter c` for the first such
character `c` in left-to-right order (validation aborts before any
search). -/
theorem claim_C2 (cfg : Config) (pre : List Char) (c : Char) (suf : List Char)
    (hpre : ∀ d ∈ pre, d ∈ alphabet cfg) (hc : c ∉ alphabet cfg) :
    naiveParse cfg (pre ++ c :: suf) = .error (.invalidCharacter c) ∧
    dfsParse cfg (pre ++ c :: suf) = .error (.invalidCharacter c) ∧
    memoizedParse cfg (pre ++ c :: suf) = .error (.invalidCharacter c) := by
  have hv := validate_append_invalid cfg pre c suf hpre hc
  refine ⟨?_, ?_, ?_⟩ <;> simp [naiveParse, dfsParse, memoizedParse, hv]

/-- Witness for C2: `parse("1 2")` fails with `InvalidCharacter(' ')` on
the default configuration, for all three strategies. -/
theorem claim_C2_witness :
    naiveParse default_config ['1', ' ', '2'] = .error (.invalidCharacter ' ') ∧
    dfsParse default_config ['1', ' ', '2'] = .error (.invalidCharacter ' ') ∧
    memoizedParse default_config ['1', ' ', '2'] = .error (.invalidCharacter ' ') :=
  claim_C2 default_config ['1'] ' ' ['2'] (by decide) (by decide)

/-- Claim C3: when every character of the input belongs to the alphabet,
every strategy's parse returns `Ok` (with the decoded list, which may be
empty); absence of decodings is never an error. -/
theorem claim_C3 (cfg : Config) (digits : List Char)
    (h : ∀ c ∈ digits, c ∈ alphabet cfg) :
    naiveParse cfg digits = .ok (parse_list cfg digits) ∧
    dfsParse cfg digits = .ok (parse_list cfg digits) ∧
    memoizedParse cfg digits = .ok (parse_list cfg digits) := by
  have hv : validate cfg digits = none := (validate_eq_none_iff cfg digits).mpr h
  refine ⟨?_, ?_, ?_⟩
  · simp [naiveParse, hv]
  · rw [dfsParse_eq_naiveParse]
    simp [naiveParse, hv]
  · rw [memoizedParse_eq_naiveParse]
    simp [naiveParse, hv]

/-- Witness for C3 at the default configuration and input `"0"` (all
characters valid, no decoding: a successful empty result). -/
theorem claim_C3_witness :
    naiveParse default_config ['0'] = .ok (parse_list default_config ['0']) ∧
    dfsParse default_config ['0'] = .ok (parse_list default_config ['0']) ∧
    memoizedParse default_config ['0'] = .ok (parse_list default_config ['0']) :=
  claim_C3 default_config ['0'] (by decide)

/-- Claim C4: the list returned by a successful memoized parse has length
exactly `dp[0]`, where `dp` is the completion-count recurrence of the
claim (`specCount`), which is also what `count_solutions` computes on
the decode graph. -/
theorem claim_C4 (cfg : Config) (digits : List Char) (rs : List (List Char))
    (h : memoizedParse cfg digits = .ok rs) :
    rs.length = specCount cfg digits 0 ∧
    rs.length = count_solutions digits.length (build_graph cfg digits) := by
  rw [memoizedParse_eq_naiveParse] at h
  cases hv : validate cfg digits with
  | some e => simp [naiveParse, hv] at h
  | none =>
    simp only [naiveParse, hv, Except.ok.injEq] at h
    subst h
    exact ⟨parse_list_length_eq_specCount cfg digits,
      (parse_list_length_eq_specCount cfg digits).trans
        (count_solutions_eq_specCount cfg digits).symm⟩

/-- Witness for C4 at the default configuration and input `"111"`
(3 decodings). -/
theorem claim_C4_witness :
    ([['A', 'A', 'A'], ['A', 'K'], ['K', 'A']] : List (List Char)).length =
        specCount default_config ['1', '1', '1'] 0 ∧
    ([['A', 'A', 'A'], ['A', 'K'], ['K', 'A']] : List (List Char)).length =
        count_solutions (['1', '1', '1'] : List Char).length
          (build_graph default_config ['1', '1', '1']) :=
  claim_C4 default_config ['1', '1', '1'] [['A', 'A', 'A'], ['A', 'K'], ['K', 'A']] rfl

/-- Claim C5: with the default configuration, all three strategies
return `Ok [""]` on `""`; on `"1234"` a list whose set of elements is
`{"ABCD", "AWD", "LCD"}`; on `"111"` a list whose set of elements is
`{"AAA", "AK", "KA"}`. -/
theorem claim_C5 :
    (naiveParse default_config [] = .ok [[]] ∧
     dfsParse default_config [] = .ok [[]] ∧
     memoizedParse default_config [] = .ok [[]]) ∧
    (∃ l₁ l₂ l₃,
      naiveParse default_config ['1', '2', '3', '4'] = .ok l₁ ∧
      dfsParse default_config ['1', '2', '3', '4'] = .ok l₂ ∧
      memoizedParse default_config ['1', '2', '3', '4'] = .ok l₃ ∧
      (∀ w, w ∈ l₁ ↔
        w = ['A', 'B', 'C', 'D'] ∨ w = ['A', 'W', 'D'] ∨ w = ['L', 'C', 'D']) ∧
      (∀ w, w ∈ l₂ ↔
        w = ['A', 'B', 'C', 'D'] ∨ w = ['A', 'W', 'D'] ∨ w = ['L', 'C', 'D']) ∧
      (∀ w, w ∈ l₃ ↔
        w = ['A', 'B', 'C', 'D'] ∨ w = ['A', 'W', 'D'] ∨ w = ['L', 'C', 'D'])) ∧
    (∃ l₁ l₂ l₃,
      naiveParse default_config ['1', '1', '1'] = .ok l₁ ∧
      dfsParse default_config ['1', '1', '1'] = .ok l₂ ∧
      memoizedParse default_config ['1', '1', '1'] = .ok l₃ ∧
      (∀ w, w ∈ l₁ ↔
        w = ['A', 'A', 'A'] ∨ w = ['A', 'K'] ∨ w = ['K', 'A']) ∧
      (∀ w, w ∈ l₂ ↔
        w = ['A', 'A', 'A'] ∨ w = ['A', 'K'] ∨ w = ['K', 'A']) ∧
      (∀ w, w ∈ l₃ ↔
        w = ['A', 'A', 'A'] ∨ w = ['A', 'K'] ∨ w = ['K', 'A'])) := by
  refine ⟨⟨rfl, rfl, rfl⟩,
    ⟨[['A', 'B', 'C', 'D'], ['A', 'W', 'D'], ['L', 'C', 'D']],
     [['A', 'B', 'C', 'D'], ['A', 'W', 'D'], ['L', 'C', 'D']],
     [['A', 'B', 'C', 'D'], ['A', 'W', 'D'], ['L', 'C', 'D']],
     rfl, rfl, rfl, ?_, ?_, ?_⟩,
    ⟨[['A', 'A', 'A'], ['A', 'K'], ['K', 'A']],
     [['A', 'A', 'A'], ['A', 'K'], ['K', 'A']],
     [['A', 'A', 'A'], ['A', 'K'], ['K', 'A']],
     rfl, rfl, rfl, ?_, ?_, ?_⟩⟩ <;>
    · intro w
      simp [List.mem_cons]

/-- Claim C6: with the default configuration, `parse("0")` and
`parse("01")` return `Ok []` for every strategy: `'0'` is in the
alphabet through the tokens `"10"` and `"20"`, but neither `"0"` nor
`"01"` is a table key. -/
theorem claim_C6 :
    (naiveParse default_config ['0'] = .ok [] ∧
     dfsParse default_config ['0'] = .ok [] ∧
     memoizedParse default_config ['0'] = .ok []) ∧
    (naiveParse default_config ['0', '1'] = .ok [] ∧
     dfsParse default_config ['0', '1'] = .ok [] ∧
     memoizedParse default_config ['0', '1'] = .ok []) ∧
    '0' ∈ alphabet default_config ∧
    (['1', '0'], 'J') ∈ default_config ∧
    (['2', '0'], 'T') ∈ default_config ∧
    tableGet default_config ['0'] = none ∧
    tableGet default_config ['0', '1'] = none :=
  ⟨⟨rfl, rfl, rfl⟩, ⟨rfl, rfl, rfl⟩, by decide, by decide, by decide, rfl, rfl⟩

/-- Claim C7: when the same token string occurs in several configuration
pairs, the constructed table maps it to the symbol of the pair occurring
last in iteration order (a single surviving mapping). -/
theorem claim_C7 (cfg : Config) (t : List Char) (p : List Char × Char)
    (_hdup : 2 ≤ (cfg.filter (fun q => q.1 == t)).length)
    (hlast : (cfg.filter (fun q => q.1 == t)).getLast? = some p) :
    tableGet cfg t = some p.2 := by
  rw [tableGet_eq_getLast?_filter, hlast]
  rfl

/-- Witness for C7: a configuration binding `"1"` twice; the last symbol
wins. -/
theorem claim_C7_witness :
    tableGet [(['1'], 'A'), (['1'], 'B')] ['1'] = some 'B' :=
  claim_C7 [(['1'], 'A'), (['1'], 'B')] ['1'] (['1'], 'B') (by decide) (by decide)

/-- Claim C8: `dfs` and `generate` always return with the shared buffer
`current` holding exactly the contents it held at entry (every pushed
symbol is popped). -/
theorem claim_C8 :
    (∀ (cfg : Config) (chars : List Char) (fuel index : Nat)
      (current : List Char) (results : List (List Char)),
      (dfsGo cfg chars fuel index current results).1 = current) ∧
    (∀ (adj : List (List (Char × Nat))) (fuel index : Nat)
      (current : List Char) (results : List (List Char)),
      (generateGo adj fuel index current results).1 = current) :=
  ⟨fun cfg chars fuel index current results =>
      dfsGo_fst cfg chars fuel index current results,
    fun adj fuel index current results =>
      generateGo_fst adj fuel index current results⟩

/-- Claim C9: the three strategies return element-for-element identical
lists (same order and multiplicities) on every input, valid or not. -/
theorem claim_C9 (cfg : Config) (digits : List Char) :
    dfsParse cfg digits = naiveParse cfg digits ∧
    memoizedParse cfg digits = naiveParse cfg digits :=
  ⟨dfsParse_eq_naiveParse cfg digits, memoizedParse_eq_naiveParse cfg digits⟩

/-- Claim C10: every decode-graph edge target lies strictly beyond its
source and within `0..n`, and every lookahead examined by the search
loops satisfies `index + len ≤ n`, so all slice and `dp` accesses stay
in bounds. -/
theorem claim_C10 (cfg : Config) (chars : List Char) :
    (∀ (i : Nat) (e : Char × Nat), e ∈ (build_graph cfg chars).getD i [] →
      i < e.2 ∧ e.2 ≤ chars.length) ∧
    (∀ (index len : Nat),
      len ∈ List.range' 1 (min (max_lookahead cfg) (chars.length - index)) →
      1 ≤ len ∧ index + len ≤ chars.length) := by
  constructor
  · intro i e he
    exact build_graph_mem_bounds cfg chars i e he
  · intro index len hlen
    have := List.mem_range'_1.mp hlen
    constructor <;> omega

/-- Witness for C10 on a one-token configuration and one-character
input. -/
theorem claim_C10_witness :
    ((0 : Nat) < 1 ∧ (1 : Nat) ≤ 1) ∧ (1 ≤ (1 : Nat) ∧ (0 : Nat) + 1 ≤ 1) :=
  ⟨(claim_C10 [(['1'], 'A')] ['1']).1 0 ('A', 1) (by decide),
   (claim_C10 [(['1'], 'A')] ['1']).2 0 1 (by decide)⟩

end NumberWords
